import Mathlib

set_option autoImplicit false

/-! Verification of the UCI analysis aggregator (`UCIParser` in
`src/lib/gameManager.ts`).  The line scanners model the JavaScript
regular-expression extraction used by the source, including its
substring-matching behaviour (leftmost match, greedy quantifiers).
JavaScript `Map` objects are modelled as insertion-ordered association
lists (`set` keeps the position of an existing key, otherwise appends),
matching JavaScript `Map` iteration semantics.  Wall-clock fields
(`timestamp`) and console logging are outside the model; JavaScript
number precision beyond exact integer/rational arithmetic is out of
scope. -/

namespace UCI

/-- Character list of one protocol line. -/
abbrev Chars := List Char

/-- Whitespace characters matched by the JavaScript regex class. -/
def isSpaceCh (c : Char) : Bool :=
  c = ' ' || c = '\t' || c = '\n' || c = '\r' || c = Char.ofNat 11 || c = Char.ofNat 12

/-- Word characters for the JavaScript word-boundary assertion. -/
def isWordCh (c : Char) : Bool := c.isAlphanum || c = '_'

/-- File letters `a`-`h` of the move pattern. -/
def isFileCh (c : Char) : Bool := 'a' ≤ c && c ≤ 'h'

/-- Rank digits `1`-`8` of the move pattern. -/
def isRankCh (c : Char) : Bool := '1' ≤ c && c ≤ '8'

/-- Promotion letters of the move pattern. -/
def isPromoCh (c : Char) : Bool :=
  c = 'q' || c = 'r' || c = 'b' || c = 'n' || c = 'Q' || c = 'R' || c = 'B' || c = 'N'

/-- Numeric value of a digit run (the effect of `parseInt(..., 10)`). -/
def digitsToNat (ds : Chars) : Nat :=
  ds.foldl (fun a c => a * 10 + (c.toNat - 48)) 0

/-- Match a literal at the head of the input, returning the remainder. -/
def dropLit : Chars → Chars → Option Chars
  | [], s => some s
  | _ :: _, [] => none
  | l :: ls, c :: cs => if l = c then dropLit ls cs else none

/-- Leftmost position at which an attempt succeeds: the regex scan loop. -/
def firstHit {α : Type} (f : Chars → Option α) : Chars → Option α
  | [] => none
  | c :: rest =>
    match f (c :: rest) with
    | some a => some a
    | none => firstHit f rest

/-- Attempt `lit(\d+)` at the current position. -/
def atNat (lit : Chars) (t : Chars) : Option Nat :=
  match dropLit lit t with
  | some (d :: ds) =>
    if d.isDigit then some (digitsToNat ((d :: ds).takeWhile Char.isDigit)) else none
  | _ => none

/-- Attempt `lit(-?\d+)` at the current position. -/
def atInt (lit : Chars) (t : Chars) : Option Int :=
  match dropLit lit t with
  | some ('-' :: d :: ds) =>
    if d.isDigit then some (-(digitsToNat ((d :: ds).takeWhile Char.isDigit) : Int)) else none
  | some (d :: ds) =>
    if d.isDigit then some ((digitsToNat ((d :: ds).takeWhile Char.isDigit) : Int)) else none
  | _ => none

/-- First match of `lit(\d+)` in the line. -/
def scanNat (lit : Chars) (s : Chars) : Option Nat := firstHit (atNat lit) s

/-- First match of `lit(-?\d+)` in the line. -/
def scanInt (lit : Chars) (s : Chars) : Option Int := firstHit (atInt lit) s

/-- Match one move token `[a-h][1-8][a-h][1-8][qrbnQRBN]?` (promotion letter
taken greedily), returning the token and the remainder. -/
def takeMove : Chars → Option (Chars × Chars)
  | a :: b :: c :: d :: rest =>
    if isFileCh a && isRankCh b && isFileCh c && isRankCh d then
      match rest with
      | p :: rest2 => if isPromoCh p then some ([a, b, c, d, p], rest2) else some ([a, b, c, d], rest)
      | [] => some ([a, b, c, d], [])
    else none
  | _ => none

/-- Continuation of the principal-variation capture: repeat
`\s+` followed by a move token as long as both match.  The fuel argument
only bounds the recursion; each step consumes at least five characters of
the remainder, so fuel equal to the remainder's length never runs out. -/
def pvTailF : Nat → Chars → List Chars
  | 0, _ => []
  | Nat.succ n, s =>
    match s with
    | [] => []
    | c :: rest =>
      if isSpaceCh c then
        match takeMove (rest.dropWhile isSpaceCh) with
        | some (m, r2) => m :: pvTailF n r2
        | none => []
      else []

/-- Continuation of the principal-variation capture after the first move. -/
def pvTail (s : Chars) : List Chars := pvTailF s.length s

/-- Attempt the body of the principal-variation pattern at the current
position (after the word boundary has been checked). -/
def atPv (t : Chars) : Option (List Chars) :=
  match dropLit "pv ".data t with
  | some after =>
    match takeMove after with
    | some (m, r) => some (m :: pvTail r)
    | none => none
  | none => none

/-- Scan for the principal-variation pattern, tracking the previous
character so the word-boundary assertion before `pv` can be evaluated. -/
def scanPvAux : Option Char → Chars → Option (List Chars)
  | _, [] => none
  | prev, c :: rest =>
    let bOk : Bool :=
      match prev with
      | none => true
      | some p => !(isWordCh p)
    match (if bOk then atPv (c :: rest) else none) with
    | some ms => some ms
    | none => scanPvAux (some c) rest

/-- First match of the principal-variation pattern in the line, returning
the captured move sequence. -/
def scanPv (s : Chars) : Option (List Chars) := scanPvAux none s

/-- Attempt `lit` followed by one move token at the current position. -/
def atMoveLit (lit : Chars) (t : Chars) : Option Chars :=
  match dropLit lit t with
  | some after => (takeMove after).map Prod.fst
  | none => none

/-- First match of the candidate-move pattern in the line. -/
def scanCurrmove (s : Chars) : Option Chars := firstHit (atMoveLit "currmove ".data) s

/-- Anchored long-algebraic move validation (`isValidMove` in the source). -/
def isValidMove (m : Chars) : Bool :=
  match m with
  | [a, b, c, d] => isFileCh a && isRankCh b && isFileCh c && isRankCh d
  | [a, b, c, d, p] => isFileCh a && isRankCh b && isFileCh c && isRankCh d && isPromoCh p
  | _ => false

/-- Kind tag of a score, `cp` or `mate`. -/
inductive ScoreKind : Type
  | cp : ScoreKind
  | mate : ScoreKind
deriving DecidableEq

/-- Tagged engine score (`MoveScore` in the source). -/
structure MoveScore : Type where
  type : ScoreKind
  value : Int
deriving DecidableEq

/-- Literal scanned for the depth field. -/
def litDepth : Chars := "depth ".data

/-- Literal scanned for the multipv field. -/
def litMultipv : Chars := "multipv ".data

/-- Literal scanned for the seldepth field. -/
def litSeldepth : Chars := "seldepth ".data

/-- Literal scanned for the time field. -/
def litTime : Chars := "time ".data

/-- Literal scanned for the nodes field. -/
def litNodes : Chars := "nodes ".data

/-- Literal scanned for the centipawn score field. -/
def litScoreCp : Chars := "score cp ".data

/-- Literal scanned for the mate score field. -/
def litScoreMate : Chars := "score mate ".data

/-- Score extraction used by the move branches (`extractScore` in the
source): centipawn pattern first, then mate pattern. -/
def extractScore (msg : Chars) : Option MoveScore :=
  match scanInt litScoreCp msg with
  | some v => some ⟨ScoreKind.cp, v⟩
  | none =>
    match scanInt litScoreMate msg with
    | some v => some ⟨ScoreKind.mate, v⟩
    | none => none

/-- One candidate move's analysis record (`MoveAnalysisData` in the source).
The source always stores a number in `multipv`, so it is not optional here. -/
structure MoveAnalysisData : Type where
  move : Chars
  score : MoveScore
  depth : Nat
  pv : Option (List Chars)
  multipv : Nat
  seldepth : Option Nat
  time : Option Nat
  nodes : Option Nat
deriving DecidableEq

/-- Insertion-ordered move table, modelling a JavaScript `Map`. -/
abbrev LiveMap := List (Chars × MoveAnalysisData)

/-- Lookup in an insertion-ordered association list. -/
def oget {K V : Type} [DecidableEq K] (k : K) : List (K × V) → Option V
  | [] => none
  | p :: rest => if p.1 = k then some p.2 else oget k rest

/-- JavaScript `Map.set`: replace in place if the key is present, else
append at the end. -/
def oset {K V : Type} [DecidableEq K] (k : K) (v : V) : List (K × V) → List (K × V)
  | [] => [(k, v)]
  | p :: rest => if p.1 = k then (k, v) :: rest else p :: oset k v rest

/-- Keys of an association list in iteration order. -/
def okeys {K V : Type} (m : List (K × V)) : List K := m.map Prod.fst

/-- Aggregator state (the private fields of `UCIParser`). -/
structure ParserState : Type where
  currentDepth : Nat
  moveAnalysis : LiveMap
  depthAnalysis : List (Nat × LiveMap)
  isBlackToMove : Bool
deriving DecidableEq

/-- State brought about by the constructor (which calls `reset`). -/
def ParserState.init : ParserState := ⟨0, [], [], false⟩

/-- Effect of `reset()` on the state. -/
def reset (_ : ParserState) : ParserState := ⟨0, [], [], false⟩

/-- Effect of `setSideToMove(isBlack)` on the state. -/
def setSideToMove (b : Bool) (st : ParserState) : ParserState :=
  ⟨st.currentDepth, st.moveAnalysis, st.depthAnalysis, b⟩

/-- Record stored by either move branch of `parseInfo`; the optional
fields are scanned from the line exactly as in the source. -/
def mkEntry (mv : Chars) (sc : MoveScore) (d : Nat) (pv : Option (List Chars))
    (msg : Chars) : MoveAnalysisData :=
  ⟨mv, sc, d, pv, (scanNat litMultipv msg).getD 1, scanNat litSeldepth msg,
    scanNat litTime msg, scanNat litNodes msg⟩

/-- Depth-transition bookkeeping of `parseInfo`: when the line's depth
exceeds `currentDepth`, archive the live map under the old depth (only if
the old depth is positive and the map non-empty), clear the live map and
raise `currentDepth`; otherwise leave the state alone. -/
def archiveStep (st : ParserState) (d : Nat) : ParserState :=
  if st.currentDepth < d then
    ⟨d, [],
      (if 0 < st.currentDepth && !st.moveAnalysis.isEmpty then
        oset st.currentDepth st.moveAnalysis st.depthAnalysis
      else st.depthAnalysis),
      st.isBlackToMove⟩
  else st

/-- Candidate-move branch of `parseInfo`: writes only when the line carries
a currmove token and a score, and any existing entry for that move lacks a
principal variation. -/
def currStep (msg : Chars) (d : Nat) (live : LiveMap) : Bool × LiveMap :=
  match scanCurrmove msg with
  | some mv =>
    match extractScore msg with
    | some sc =>
      match oget mv live with
      | some e =>
        if e.pv.isSome then (false, live)
        else (true, oset mv (mkEntry mv sc d none msg) live)
      | none => (true, oset mv (mkEntry mv sc d none msg) live)
    | none => (false, live)
  | none => (false, live)

/-- Principal-variation branch of `parseInfo`: always overwrites when the
line carries a principal variation whose first move is valid and a score. -/
def pvStep (msg : Chars) (d : Nat) (live : LiveMap) : Bool × LiveMap :=
  match scanPv msg with
  | some (m :: ms) =>
    if !m.isEmpty && isValidMove m then
      match extractScore msg with
      | some sc => (true, oset m (mkEntry m sc d (some (m :: ms)) msg) live)
      | none => (false, live)
    else (false, live)
  | _ => (false, live)

/-- Whether the candidate-move branch writes on the given live map. -/
def currWrites (msg : Chars) (live : LiveMap) : Bool :=
  match scanCurrmove msg, extractScore msg with
  | some mv, some _ =>
    match oget mv live with
    | some e => !e.pv.isSome
    | none => true
  | _, _ => false

/-- Whether the principal-variation branch writes. -/
def pvWrites (msg : Chars) : Bool :=
  match scanPv msg, extractScore msg with
  | some (m :: _), some _ => !m.isEmpty && isValidMove m
  | _, _ => false

/-- Whether the principal-variation branch writes the given move. -/
def pvWritesMove (msg : Chars) (mv : Chars) : Bool :=
  match scanPv msg, extractScore msg with
  | some (m :: _), some _ => (!m.isEmpty && isValidMove m) && m = mv
  | _, _ => false

/-- One `parseInfo(message)` call: returns the updated flag and the new
state.  Mirrors the source: depth extraction (no depth means no change and
`false`), depth-transition bookkeeping, candidate-move branch, then
principal-variation branch. -/
def parseInfo (msg : Chars) (st : ParserState) : Bool × ParserState :=
  match scanNat litDepth msg with
  | none => (false, st)
  | some d =>
    let st1 := archiveStep st d
    let r1 := currStep msg d st1.moveAnalysis
    let r2 := pvStep msg d r1.2
    (r1.1 || r2.1, ⟨st1.currentDepth, r2.2, st1.depthAnalysis, st1.isBlackToMove⟩)

/-- Comparison score used for best-move selection
(`calculateNumericScore` in the source). -/
def calculateNumericScore (sc : MoveScore) : Int :=
  match sc.type with
  | ScoreKind.mate => if 0 < sc.value then 10000 - sc.value else -10000 - sc.value
  | ScoreKind.cp => sc.value

/-- Rank used in the tie-break (`analysis.multipv || 1` in the source:
a zero rank is treated as 1). -/
def rankOf (e : MoveAnalysisData) : Nat := if e.multipv = 0 then 1 else e.multipv

/-- One step of the best-move fold: replace the incumbent on a strictly
better comparison score, or on an equal score with a strictly smaller
rank.  The source's `-Infinity` / `Infinity` seeds are modelled by the
`none` accumulator. -/
def pickBest (acc : Option (Chars × Int × Nat)) (p : Chars × MoveAnalysisData) :
    Option (Chars × Int × Nat) :=
  let s := calculateNumericScore p.2.score
  let r := rankOf p.2
  match acc with
  | none => some (p.1, s, r)
  | some (bm, bs, br) =>
    if bs < s || (s = bs && r < br) then some (p.1, s, r) else some (bm, bs, br)

/-- One step of the live-entry loop of `getSnapshot`: keep the entry with
the higher depth when the key repeats (vacuous for a well-formed live map,
whose keys are unique). -/
def liveStep (acc : LiveMap) (p : Chars × MoveAnalysisData) : LiveMap :=
  match oget p.1 acc with
  | some e => if e.depth ≤ p.2.depth then oset p.1 p.2 acc else acc
  | none => oset p.1 p.2 acc

/-- One step of the archive loop of `getSnapshot`: add an archived entry
only when its move is not already present. -/
def archStep (acc2 : LiveMap) (p : Chars × MoveAnalysisData) : LiveMap :=
  if (oget p.1 acc2).isSome then acc2 else oset p.1 p.2 acc2

/-- Consolidation loop of `getSnapshot`: live entries first, then entries
of each archived depth map for moves not already present. -/
def consolidate (st : ParserState) : LiveMap :=
  st.depthAnalysis.foldl (fun acc dp => dp.2.foldl archStep acc)
    (st.moveAnalysis.foldl liveStep [])

/-- Ingest a list of lines in order, keeping only the state. -/
def ingestAll (msgs : List Chars) (st : ParserState) : ParserState :=
  msgs.foldl (fun s m => (parseInfo m s).2) st

/-- Externally visible snapshot; the wall-clock `timestamp` field of the
source is outside the model. -/
structure Snapshot : Type where
  depth : Nat
  moves : LiveMap
  bestMove : Option Chars
  isComplete : Bool
deriving DecidableEq

/-- Effect of `getSnapshot(isComplete)`. -/
def getSnapshot (isComplete : Bool) (st : ParserState) : Snapshot :=
  let consolidated := consolidate st
  let best := consolidated.foldl pickBest none
  ⟨st.currentDepth, consolidated, best.map (fun t => t.1), isComplete⟩

/-- Snapshot handed to the subscriber callback by `parseInfo`, when any:
the callback fires exactly when the call returned `true`. -/
def parseInfoEmits (msg : Chars) (st : ParserState) : Option Snapshot :=
  if (parseInfo msg st).1 then some (getSnapshot false (parseInfo msg st).2) else none

/-- Effect of `handleBestMove`: archive the final live map under the
current depth (same guard as the depth transition) and produce a complete
snapshot. -/
def handleBestMove (st : ParserState) : Snapshot × ParserState :=
  let st1 : ParserState :=
    if 0 < st.currentDepth && !st.moveAnalysis.isEmpty then
      ⟨st.currentDepth, st.moveAnalysis,
        oset st.currentDepth st.moveAnalysis st.depthAnalysis, st.isBlackToMove⟩
    else st
  (getSnapshot true st1, st1)

/-- Exact two-decimal rendering of `w / 100` with the sign coming from the
minus itself, the effect of JavaScript `toFixed(2)` on the exact values
produced by the centipawn conversion. -/
def fixed2 (w : Int) : String :=
  let n := w.natAbs
  (if w < 0 then "-" else "") ++ Nat.repr (n / 100) ++ "." ++
    (if n % 100 < 10 then "0" ++ Nat.repr (n % 100) else Nat.repr (n % 100))

/-- Result of `parseEvaluation`. -/
structure EvalResult : Type where
  score : ℚ
  displayScore : String
  isMate : Bool
deriving DecidableEq

/-- One `parseEvaluation(message)` call, mirroring the source: the mate
pattern takes priority, the value is negated for the second player, mate
zero yields the ±1100 sentinel with display `#`, non-zero mates yield
`1000 - |m|` with the sign of the converted value, and centipawns are
divided by 100 with a leading `+` exactly for strictly positive values. -/
def parseEvaluation (msg : Chars) (st : ParserState) : Option EvalResult :=
  match scanInt litScoreMate msg with
  | some m0 =>
    let mateIn : Int := if st.isBlackToMove then -m0 else m0
    if mateIn = 0 then
      if st.isBlackToMove then some ⟨1100, "#", true⟩
      else some ⟨-1100, "#", true⟩
    else
      let score : Int := 1000 - (mateIn.natAbs : Int)
      let finalScore : Int := if 0 < mateIn then score else -score
      some ⟨(finalScore : ℚ),
        (if 0 < mateIn then "+M" ++ Nat.repr mateIn.natAbs
          else "-M" ++ Nat.repr mateIn.natAbs), true⟩
  | none =>
    match scanInt litScoreCp msg with
    | some c =>
      let raw : ℚ := if st.isBlackToMove then -((c : ℚ) / 100) else (c : ℚ) / 100
      let w : Int := if st.isBlackToMove then -c else c
      some ⟨raw, (if 0 < raw then "+" ++ fixed2 w else fixed2 w), false⟩
    | none => none

/-- Operations a consumer can perform on the aggregator; used to state
properties of all reachable states. -/
inductive AggOp : Type
  | line : Chars → AggOp
  | best : AggOp
  | doReset : AggOp
  | side : Bool → AggOp

/-- Run one operation. -/
def runOp (st : ParserState) : AggOp → ParserState
  | AggOp.line m => (parseInfo m st).2
  | AggOp.best => (handleBestMove st).2
  | AggOp.doReset => reset st
  | AggOp.side b => setSideToMove b st

/-- Run a sequence of operations from the freshly constructed state. -/
def runOps (ops : List AggOp) : ParserState := ops.foldl runOp ParserState.init

/-- Archive well-formedness: keys strictly increasing in iteration order
and bounded by the current depth. -/
def archInv (st : ParserState) : Prop :=
  List.Pairwise (· < ·) (okeys st.depthAnalysis) ∧
    ∀ k ∈ okeys st.depthAnalysis, k ≤ st.currentDepth

/-- Order on (comparison score, rank) pairs: the first component is
at least as good, and on a tie the rank is no worse. -/
def asGood (x y : Int × Nat) : Prop := y.1 < x.1 ∨ (y.1 = x.1 ∧ x.2 ≤ y.2)

/-- Whitespace-separated tokens of a line. -/
def tokensOf (s : Chars) : List Chars :=
  (s.foldr
    (fun c acc =>
      if isSpaceCh c then [] :: acc
      else
        match acc with
        | [] => [[c]]
        | g :: gs => (c :: g) :: gs)
    []).filter (fun g => !g.isEmpty)

/-- Token-level reading of a depth field: some token `depth` immediately
followed by a purely numeric token. -/
def hasDepthTokenIn : List Chars → Bool
  | t1 :: t2 :: rest =>
    (t1 = "depth".data && !t2.isEmpty && t2.all Char.isDigit) || hasDepthTokenIn (t2 :: rest)
  | _ => false

/-- Token-level reading of "the line has a `depth <integer>` token". -/
def hasDepthToken (s : Chars) : Bool := hasDepthTokenIn (tokensOf s)

/-! Concrete lines and states used to witness the general theorems. -/

/-- Principal-variation line establishing a live entry for `e2e4`. -/
def lineC3pv : Chars := "info depth 5 multipv 1 score cp 30 pv e2e4 e7e5".data

/-- State after ingesting `lineC3pv` into the fresh state. -/
def stC3 : ParserState := (parseInfo lineC3pv ParserState.init).2

/-- Entry stored for `e2e4` by `lineC3pv`. -/
def eC3 : MoveAnalysisData :=
  ⟨"e2e4".data, ⟨ScoreKind.cp, 30⟩, 5, some ["e2e4".data, "e7e5".data], 1, none, none, none⟩

/-- Candidate-only line for `e2e4` at the same depth. -/
def lineC3curr : Chars := "info depth 5 currmove e2e4 score cp 50".data

/-- Later principal-variation line for `e2e4` at the same depth. -/
def lineC3pv2 : Chars := "info depth 5 score cp 44 pv e2e4 d7d5".data

/-- State with one move recorded at depth 5. -/
def stC4 : ParserState :=
  (parseInfo "info depth 5 currmove e2e4 score cp 10".data ParserState.init).2

/-- Depth-6 line triggering the archive of depth 5. -/
def lineC4 : Chars := "info depth 6 currmove d2d4 score cp 8".data

/-- Further depth-6 line ingested afterwards. -/
def lineC4b : Chars := "info depth 6 currmove a2a3 score cp 1".data

/-- State holding a mate-in-1 move and a huge centipawn move. -/
def stC5 : ParserState :=
  (parseInfo "info depth 3 multipv 2 score cp 10001 pv d2d4".data
    (parseInfo "info depth 3 multipv 1 score mate 1 pv e2e4".data ParserState.init).2).2

/-- State whose current depth is 9. -/
def stC6 : ParserState :=
  (parseInfo "info depth 9 currmove a2a3 score cp 1".data ParserState.init).2

/-- Out-of-order shallower line (depth 7) with a principal variation. -/
def lineC6 : Chars := "info depth 7 multipv 2 score cp -20 pv h7h6 g8f6".data

/-- Operation sequence leaving `e2e4` in two archived depth maps. -/
def opsC10 : List AggOp :=
  [AggOp.line "info depth 2 currmove e2e4 score cp 10".data,
   AggOp.line "info depth 3 currmove e2e4 score cp 12".data,
   AggOp.line "info depth 3 currmove d2d4 score cp 5".data,
   AggOp.line "info depth 4 currmove d2d4 score cp 7".data]

/-! Association-list lemmas. -/

theorem oget_oset_self {K V : Type} [DecidableEq K] (k : K) (v : V) (m : List (K × V)) :
    oget k (oset k v m) = some v := by
  induction m with
  | nil => simp [oget, oset]
  | cons p rest ih =>
    by_cases h : p.1 = k
    · simp [oset, h, oget]
    · simp [oset, h, oget, ih]

theorem oget_oset_ne {K V : Type} [DecidableEq K] {k k2 : K} (h : k ≠ k2) (v : V)
    (m : List (K × V)) : oget k2 (oset k v m) = oget k2 m := by
  induction m with
  | nil => simp [oget, oset, h]
  | cons p rest ih =>
    by_cases hp : p.1 = k
    · simp [oset, hp, oget, h, hp ▸ h]
    · simp [oset, hp, oget, ih]

theorem oget_eq_none_iff {K V : Type} [DecidableEq K] (k : K) (m : List (K × V)) :
    oget k m = none ↔ k ∉ okeys m := by
  induction m with
  | nil => simp [oget, okeys]
  | cons p rest ih =>
    by_cases h : p.1 = k
    · simp [oget, h, okeys]
    · simp [oget, h, okeys, ih, Ne.symm h]

theorem oget_isSome_iff {K V : Type} [DecidableEq K] (k : K) (m : List (K × V)) :
    (oget k m).isSome = true ↔ k ∈ okeys m := by
  rw [← Decidable.not_iff_not, ← oget_eq_none_iff k m]
  cases oget k m <;> simp

theorem mem_of_oget {K V : Type} [DecidableEq K] {k : K} {v : V} {m : List (K × V)}
    (h : oget k m = some v) : (k, v) ∈ m := by
  induction m with
  | nil => simp [oget] at h
  | cons p rest ih =>
    by_cases hp : p.1 = k
    · simp only [oget, if_pos hp] at h
      injection h with h2
      have hpv : p = (k, v) := by
        obtain ⟨a, b⟩ := p
        simp only at hp h2
        rw [hp, h2]
      rw [← hpv]
      exact List.mem_cons_self p rest
    · simp only [oget, if_neg hp] at h
      exact List.mem_cons_of_mem _ (ih h)

theorem okeys_oset_mem {K V : Type} [DecidableEq K] {k : K} (v : V) {m : List (K × V)}
    (h : k ∈ okeys m) : okeys (oset k v m) = okeys m := by
  induction m with
  | nil => simp [okeys] at h
  | cons p rest ih =>
    by_cases hp : p.1 = k
    · simp [oset, hp, okeys]
    · have hr : k ∈ okeys rest := by
        rcases (by simpa [okeys] using h : k = p.1 ∨ k ∈ List.map Prod.fst rest) with h1 | h1
        · exact absurd h1.symm hp
        · simpa [okeys] using h1
      have h2 := ih hr
      simp only [okeys, List.map_cons] at h2 ⊢
      simp [oset, hp, h2]

theorem okeys_oset_not_mem {K V : Type} [DecidableEq K] {k : K} (v : V) {m : List (K × V)}
    (h : k ∉ okeys m) : okeys (oset k v m) = okeys m ++ [k] := by
  induction m with
  | nil => simp [oset, okeys]
  | cons p rest ih =>
    have hp : p.1 ≠ k := by
      intro hc
      apply h
      rw [okeys, List.map_cons, hc]
      exact List.mem_cons_self k _
    have hr : k ∉ okeys rest := by
      intro hc
      apply h
      rw [okeys, List.map_cons]
      exact List.mem_cons_of_mem _ (by simpa [okeys] using hc)
    have h2 := ih hr
    simp only [okeys, List.map_cons] at h2 ⊢
    simp [oset, hp, h2]

theorem nodup_okeys_oset {K V : Type} [DecidableEq K] (k : K) (v : V) {m : List (K × V)}
    (h : (okeys m).Nodup) : (okeys (oset k v m)).Nodup := by
  by_cases hk : k ∈ okeys m
  · rw [okeys_oset_mem v hk]; exact h
  · rw [okeys_oset_not_mem v hk, List.nodup_append]
    refine ⟨h, List.nodup_singleton _, ?_⟩
    intro a ha hb
    rw [List.mem_singleton] at hb
    subst hb
    exact hk ha

theorem oget_of_mem_nodup {K V : Type} [DecidableEq K] {k : K} {v : V} {m : List (K × V)}
    (hn : (okeys m).Nodup) (h : (k, v) ∈ m) : oget k m = some v := by
  induction m with
  | nil => simp at h
  | cons p rest ih =>
    have hcons : p.1 ∉ List.map Prod.fst rest ∧ (List.map Prod.fst rest).Nodup := by
      have h0 := hn
      rw [okeys, List.map_cons, List.nodup_cons] at h0
      exact h0
    rcases List.mem_cons.1 h with h1 | h1
    · rw [← h1]
      simp [oget]
    · have hkm : k ∈ List.map Prod.fst rest := List.mem_map_of_mem Prod.fst h1
      have hp : p.1 ≠ k := fun hc => hcons.1 (hc ▸ hkm)
      have hn2 : (okeys rest).Nodup := hcons.2
      simp [oget, hp, ih hn2 h1]

/-! Branch-shape lemmas for `parseInfo`. -/

theorem currStep_cases (msg : Chars) (d : Nat) (live : LiveMap) :
    ((currStep msg d live).1 = false ∧ (currStep msg d live).2 = live) ∨
    (∃ mv sc, scanCurrmove msg = some mv ∧ extractScore msg = some sc ∧
      (currStep msg d live).1 = true ∧
      (currStep msg d live).2 = oset mv (mkEntry mv sc d none msg) live ∧
      ∀ e, oget mv live = some e → e.pv.isSome = false) := by
  cases hm : scanCurrmove msg with
  | none => exact Or.inl ⟨by simp [currStep, hm], by simp [currStep, hm]⟩
  | some mv =>
    cases hs : extractScore msg with
    | none => exact Or.inl ⟨by simp [currStep, hm, hs], by simp [currStep, hm, hs]⟩
    | some sc =>
      cases he : oget mv live with
      | none =>
        refine Or.inr ⟨mv, sc, rfl, rfl, by simp [currStep, hm, hs, he],
          by simp [currStep, hm, hs, he], ?_⟩
        intro e he2
        rw [he] at he2
        cases he2
      | some e =>
        by_cases hpv : e.pv.isSome = true
        · exact Or.inl ⟨by simp [currStep, hm, hs, he, hpv], by simp [currStep, hm, hs, he, hpv]⟩
        · refine Or.inr ⟨mv, sc, rfl, rfl, by simp [currStep, hm, hs, he, hpv],
            by simp [currStep, hm, hs, he, hpv], ?_⟩
          intro e2 he2
          rw [he] at he2
          injection he2 with h3
          rw [← h3]
          simpa using hpv

theorem pvStep_cases (msg : Chars) (d : Nat) (live : LiveMap) :
    ((pvStep msg d live).1 = false ∧ (pvStep msg d live).2 = live) ∨
    (∃ m ms sc, scanPv msg = some (m :: ms) ∧ extractScore msg = some sc ∧
      (!m.isEmpty && isValidMove m) = true ∧
      (pvStep msg d live).1 = true ∧
      (pvStep msg d live).2 = oset m (mkEntry m sc d (some (m :: ms)) msg) live) := by
  cases hp : scanPv msg with
  | none => exact Or.inl ⟨by simp [pvStep, hp], by simp [pvStep, hp]⟩
  | some ms0 =>
    cases ms0 with
    | nil => exact Or.inl ⟨by simp [pvStep, hp], by simp [pvStep, hp]⟩
    | cons m ms =>
      by_cases hv : (!m.isEmpty && isValidMove m) = true
      · cases hs : extractScore msg with
        | none => exact Or.inl ⟨by simp [pvStep, hp, hv, hs], by simp [pvStep, hp, hv, hs]⟩
        | some sc =>
          exact Or.inr ⟨m, ms, sc, rfl, rfl, hv, by simp [pvStep, hp, hv, hs],
            by simp [pvStep, hp, hv, hs]⟩
      · exact Or.inl ⟨by simp [pvStep, hp, hv], by simp [pvStep, hp, hv]⟩

theorem currStep_fst (msg : Chars) (d : Nat) (live : LiveMap) :
    (currStep msg d live).1 = currWrites msg live := by
  cases hm : scanCurrmove msg with
  | none => simp [currStep, currWrites, hm]
  | some mv =>
    cases hs : extractScore msg with
    | none => simp [currStep, currWrites, hm, hs]
    | some sc =>
      cases he : oget mv live with
      | none => simp [currStep, currWrites, hm, hs, he]
      | some e =>
        by_cases hpv : e.pv.isSome = true <;> simp [currStep, currWrites, hm, hs, he, hpv]

theorem pvStep_fst (msg : Chars) (d : Nat) (live : LiveMap) :
    (pvStep msg d live).1 = pvWrites msg := by
  cases hp : scanPv msg with
  | none => cases hs : extractScore msg <;> simp [pvStep, pvWrites, hp, hs]
  | some ms0 =>
    cases ms0 with
    | nil => cases hs : extractScore msg <;> simp [pvStep, pvWrites, hp, hs]
    | cons m ms =>
      cases hs : extractScore msg with
      | none =>
        by_cases hv : (!m.isEmpty && isValidMove m) = true <;> simp [pvStep, pvWrites, hp, hs, hv]
      | some sc =>
        by_cases hv : (!m.isEmpty && isValidMove m) = true <;> simp [pvStep, pvWrites, hp, hs, hv]

theorem parseInfo_no_depth (msg : Chars) (st : ParserState)
    (h : scanNat litDepth msg = none) : parseInfo msg st = (false, st) := by
  simp [parseInfo, h]

theorem parseInfo_depth (msg : Chars) (st : ParserState) (d : Nat)
    (h : scanNat litDepth msg = some d) :
    parseInfo msg st =
      ((currStep msg d (archiveStep st d).moveAnalysis).1 ||
        (pvStep msg d (currStep msg d (archiveStep st d).moveAnalysis).2).1,
       ⟨(archiveStep st d).currentDepth,
        (pvStep msg d (currStep msg d (archiveStep st d).moveAnalysis).2).2,
        (archiveStep st d).depthAnalysis, (archiveStep st d).isBlackToMove⟩) := by
  simp [parseInfo, h]

theorem archiveStep_stay (st : ParserState) (d : Nat) (h : ¬ st.currentDepth < d) :
    archiveStep st d = st := by
  simp [archiveStep, h]

theorem archiveStep_go (st : ParserState) (d : Nat) (h : st.currentDepth < d) :
    archiveStep st d =
      ⟨d, [],
        (if 0 < st.currentDepth && !st.moveAnalysis.isEmpty then
          oset st.currentDepth st.moveAnalysis st.depthAnalysis
        else st.depthAnalysis), st.isBlackToMove⟩ := by
  simp [archiveStep, h]

theorem parseInfo_fst (msg : Chars) (st : ParserState) (d : Nat)
    (h : scanNat litDepth msg = some d) :
    (parseInfo msg st).1 =
      (currWrites msg (archiveStep st d).moveAnalysis || pvWrites msg) := by
  simp [parseInfo, h, currStep_fst, pvStep_fst]

theorem parseInfo_snd_currentDepth (msg : Chars) (st : ParserState) (d : Nat)
    (h : scanNat litDepth msg = some d) :
    (parseInfo msg st).2.currentDepth = (archiveStep st d).currentDepth := by
  simp [parseInfo, h]

theorem parseInfo_snd_moveAnalysis (msg : Chars) (st : ParserState) (d : Nat)
    (h : scanNat litDepth msg = some d) :
    (parseInfo msg st).2.moveAnalysis =
      (pvStep msg d (currStep msg d (archiveStep st d).moveAnalysis).2).2 := by
  simp [parseInfo, h]

theorem parseInfo_snd_depthAnalysis (msg : Chars) (st : ParserState) (d : Nat)
    (h : scanNat litDepth msg = some d) :
    (parseInfo msg st).2.depthAnalysis = (archiveStep st d).depthAnalysis := by
  simp [parseInfo, h]

theorem parseInfo_snd_isBlackToMove (msg : Chars) (st : ParserState) (d : Nat)
    (h : scanNat litDepth msg = some d) :
    (parseInfo msg st).2.isBlackToMove = (archiveStep st d).isBlackToMove := by
  simp [parseInfo, h]

theorem currStep_false_snd {msg : Chars} {d : Nat} {live : LiveMap}
    (h : (currStep msg d live).1 = false) : (currStep msg d live).2 = live := by
  rcases currStep_cases msg d live with ⟨_, h2⟩ | ⟨mv, sc, _, _, h1, _, _⟩
  · exact h2
  · rw [h1] at h
    exact absurd h (by decide)

theorem pvStep_false_snd {msg : Chars} {d : Nat} {live : LiveMap}
    (h : (pvStep msg d live).1 = false) : (pvStep msg d live).2 = live := by
  rcases pvStep_cases msg d live with ⟨_, h2⟩ | ⟨m, ms, sc, _, _, _, h1, _⟩
  · exact h2
  · rw [h1] at h
    exact absurd h (by decide)

theorem parserState_ext {a b : ParserState}
    (h1 : a.currentDepth = b.currentDepth) (h2 : a.moveAnalysis = b.moveAnalysis)
    (h3 : a.depthAnalysis = b.depthAnalysis) (h4 : a.isBlackToMove = b.isBlackToMove) :
    a = b := by
  cases a
  cases b
  dsimp only at h1 h2 h3 h4
  rw [h1, h2, h3, h4]

theorem parseInfoEmits_of_false {msg : Chars} {st : ParserState}
    (h : (parseInfo msg st).1 = false) : parseInfoEmits msg st = none := by
  simp [parseInfoEmits, h]

/-! Evaluation-side helper lemmas. -/

theorem cast_div_pos_iff (w : Int) : 0 < (w : ℚ) / 100 ↔ 0 < w := by
  rw [div_pos_iff]
  constructor
  · rintro (⟨h1, _⟩ | ⟨_, h2⟩)
    · exact_mod_cast h1
    · norm_num at h2
  · intro h
    exact Or.inl ⟨by exact_mod_cast h, by norm_num⟩

/-- Claim C1: for every line carrying a mate score `m`, `parseEvaluation`
returns a forced-mate result.  With the converted distance (negated when
the second player is to move): a zero distance yields the ±1100 sentinel
with display `#`, positive exactly when the second player is to move; a
non-zero distance `d` yields score `1000 - |d|` carrying the sign of `d`,
with display `+M|d|` or `-M|d|`. -/
theorem mate_eval_spec (msg : Chars) (st : ParserState) (m : Int)
    (h : scanInt litScoreMate msg = some m) :
    parseEvaluation msg st =
      some
        (if (if st.isBlackToMove then -m else m) = 0 then
          ⟨if st.isBlackToMove then (1100 : ℚ) else -1100, "#", true⟩
        else
          ⟨((Int.sign (if st.isBlackToMove then -m else m) *
              (1000 - ((if st.isBlackToMove then -m else m).natAbs : Int)) : Int) : ℚ),
            (if 0 < (if st.isBlackToMove then -m else m) then "+M" else "-M") ++
              Nat.repr (if st.isBlackToMove then -m else m).natAbs, true⟩) := by
  simp only [parseEvaluation, h]
  by_cases h0 : (if st.isBlackToMove then -m else m) = 0
  · rw [if_pos h0, if_pos h0]
    by_cases hb : st.isBlackToMove
    · rw [if_pos hb, if_pos hb]
    · rw [if_neg hb, if_neg hb]
  · rw [if_neg h0, if_neg h0]
    refine congrArg some ?_
    by_cases hpos : 0 < (if st.isBlackToMove then -m else m)
    · simp only [if_pos hpos, Int.sign_eq_one_of_pos hpos, one_mul]
    · have hneg : (if st.isBlackToMove then -m else m) < 0 := by omega
      simp only [if_neg hpos, Int.sign_eq_neg_one_of_neg hneg, neg_one_mul]

/-- Witness for C1 at the concrete line `info depth 8 score mate 3`. -/
theorem mate_eval_spec_witness :
    scanInt litScoreMate "info depth 8 score mate 3".data = some 3 ∧
      parseEvaluation "info depth 8 score mate 3".data ParserState.init =
        some ⟨997, "+M3", true⟩ := by
  constructor
  · decide
  · rw [mate_eval_spec "info depth 8 score mate 3".data ParserState.init 3 (by decide)]
    have hbn : ¬ ParserState.init.isBlackToMove = true := by decide
    simp only [if_neg hbn]
    rw [if_neg (by decide : ¬ (3 : Int) = 0)]
    simp only [if_pos (by decide : (0 : Int) < 3)]
    refine congrArg some ?_
    have hs : Int.sign 3 = 1 := rfl
    have hna : (((3 : Int).natAbs : Int)) = 3 := rfl
    have h1 : ((Int.sign 3 * (1000 - (((3 : Int).natAbs : Int))) : Int) : ℚ) = 997 := by
      rw [hs, hna]
      norm_num
    have h2 : "+M" ++ Nat.repr ((3 : Int).natAbs) = "+M3" := by decide
    rw [h1, h2]

/-- Claim C2 counterexample: with the second player to move, the line
`info depth 10 score mate 0` evaluates to score +1100, which is not the
claimed -1100. -/
theorem mate0_black_cex :
    parseEvaluation "info depth 10 score mate 0".data (setSideToMove true ParserState.init) =
      some ⟨1100, "#", true⟩ ∧ (1100 : ℚ) ≠ -1100 := by
  constructor
  · decide
  · norm_num

/-- Claim C2 (amended): after `setSideToMove true`, `parseEvaluation` on
`info depth 10 score mate 0` returns score +1100 (the first player has
delivered mate), display `#`, and the forced-mate flag. -/
theorem mate0_black_plus1100 :
    parseEvaluation "info depth 10 score mate 0".data (setSideToMove true ParserState.init) =
      some ⟨1100, "#", true⟩ := by
  decide

/-- Claim C7: for every line carrying a centipawn score `c` and no mate
score, `parseEvaluation` returns a non-mate result whose score is exactly
`c / 100` negated for the second player, with a leading `+` exactly for
strictly positive values, the value rendered with two decimals. -/
theorem cp_eval_spec (msg : Chars) (st : ParserState) (c : Int)
    (hm : scanInt litScoreMate msg = none) (hc : scanInt litScoreCp msg = some c) :
    parseEvaluation msg st =
      some ⟨((if st.isBlackToMove then -c else c : Int) : ℚ) / 100,
        (if 0 < (if st.isBlackToMove then -c else c) then
          "+" ++ fixed2 (if st.isBlackToMove then -c else c)
        else fixed2 (if st.isBlackToMove then -c else c)), false⟩ := by
  simp only [parseEvaluation, hm, hc]
  have hw : (if st.isBlackToMove then -((c : ℚ) / 100) else (c : ℚ) / 100) =
      ((if st.isBlackToMove then -c else c : Int) : ℚ) / 100 := by
    by_cases hb : st.isBlackToMove
    · rw [if_pos hb, if_pos hb]
      push_cast
      ring
    · rw [if_neg hb, if_neg hb]
  rw [hw, if_congr (cast_div_pos_iff (if st.isBlackToMove then -c else c)) rfl rfl]

/-- Witness for C7 at the concrete line `info depth 4 score cp -250` with
the first player to move: score -2.50, display `-2.50`. -/
theorem cp_eval_spec_witness :
    scanInt litScoreMate "info depth 4 score cp -250".data = none ∧
      scanInt litScoreCp "info depth 4 score cp -250".data = some (-250) ∧
      parseEvaluation "info depth 4 score cp -250".data ParserState.init =
        some ⟨-(5 / 2 : ℚ), "-2.50", false⟩ := by
  refine ⟨by decide, by decide, ?_⟩
  rw [cp_eval_spec "info depth 4 score cp -250".data ParserState.init (-250) (by decide) (by decide)]
  have hbn : ¬ ParserState.init.isBlackToMove = true := by decide
  simp only [if_neg hbn]
  rw [if_neg (by decide : ¬ (0 : Int) < -250)]
  refine congrArg some ?_
  have h1 : (((-250 : Int) : ℚ)) / 100 = -(5 / 2 : ℚ) := by norm_num
  have h2 : fixed2 (-250) = "-2.50" := by decide
  rw [h1, h2]

/-- Claim C9 counterexample: `reset` does not keep the side-to-move flag;
a state whose flag is `true` has the flag `false` after `reset`. -/
theorem reset_flag_cex :
    (reset (setSideToMove true ParserState.init)).isBlackToMove = false ∧
      (setSideToMove true ParserState.init).isBlackToMove = true :=
  ⟨rfl, rfl⟩

/-- Claim C9 (amended): `reset` sets `currentDepth` to 0, empties the live
map and the per-depth archive, and also clears the side-to-move flag back
to `false`; the state carries nothing else. -/
theorem reset_spec (st : ParserState) : reset st = ⟨0, [], [], false⟩ := rfl

/-- Claim C3: once a principal-variation-bearing entry exists for a move in
the live map, a line at the same or shallower depth whose
principal-variation branch does not target that move (in particular any
candidate-only report for it) never overwrites the entry; while a line
whose principal variation starts with that move and carries a score always
overwrites it, even at equal depth. -/
theorem pv_protection (st : ParserState) (msg : Chars) (M : Chars) (e : MoveAnalysisData)
    (d : Nat) :
    (oget M st.moveAnalysis = some e → e.pv.isSome = true →
      scanNat litDepth msg = some d → d ≤ st.currentDepth →
      pvWritesMove msg M = false →
      oget M (parseInfo msg st).2.moveAnalysis = some e) ∧
    (∀ ms sc, oget M st.moveAnalysis = some e →
      scanNat litDepth msg = some d → scanPv msg = some (M :: ms) →
      isValidMove M = true → extractScore msg = some sc →
      oget M (parseInfo msg st).2.moveAnalysis = some (mkEntry M sc d (some (M :: ms)) msg)) := by
  constructor
  · intro hM hpv hd hle hnpv
    rw [parseInfo_snd_moveAnalysis msg st d hd, archiveStep_stay st d (by omega)]
    have hcur : oget M (currStep msg d st.moveAnalysis).2 = some e := by
      rcases currStep_cases msg d st.moveAnalysis with ⟨_, h2⟩ | ⟨mv, sc, hmv, hsc, _, h2, hblock⟩
      · rw [h2]
        exact hM
      · rw [h2]
        by_cases hmvM : mv = M
        · subst hmvM
          have hfalse := hblock e hM
          rw [hpv] at hfalse
          exact absurd hfalse (by decide)
        · rw [oget_oset_ne hmvM _ _]
          exact hM
    rcases pvStep_cases msg d (currStep msg d st.moveAnalysis).2 with
      ⟨_, h2⟩ | ⟨m, ms, sc, hpvs, hsc, hv, _, h2⟩
    · rw [h2]
      exact hcur
    · rw [h2]
      by_cases hmM : m = M
      · exfalso
        subst hmM
        have htrue : pvWritesMove msg m = true := by
          simp [pvWritesMove, hpvs, hsc, hv]
        rw [hnpv] at htrue
        exact absurd htrue (by decide)
      · rw [oget_oset_ne hmM _ _]
        exact hcur
  · intro ms sc hM hd hpvs hval hsc
    rw [parseInfo_snd_moveAnalysis msg st d hd]
    rcases pvStep_cases msg d (currStep msg d (archiveStep st d).moveAnalysis).2 with
      ⟨h1, _⟩ | ⟨m, ms2, sc2, hpvs2, hsc2, _, _, h2⟩
    · exfalso
      have hne : (!M.isEmpty) = true := by
        cases M with
        | nil => simp [isValidMove] at hval
        | cons a as => simp [List.isEmpty]
      have htrue : pvWrites msg = true := by
        simp [pvWrites, hpvs, hsc, hne, hval]
      rw [pvStep_fst, htrue] at h1
      exact absurd h1 (by decide)
    · rw [hpvs] at hpvs2
      rw [hsc] at hsc2
      have h3 : M = m ∧ ms = ms2 := by
        have h4 := hpvs2
        simp only [Option.some.injEq, List.cons.injEq] at h4
        exact h4
      have h5 : sc = sc2 := by
        have h6 := hsc2
        simp only [Option.some.injEq] at h6
        exact h6
      rw [h2, ← h3.1, ← h3.2, ← h5]
      exact oget_oset_self M _ _

/-- Witness for C3: after a principal-variation line stores `e2e4`, a
candidate-only line for `e2e4` at the same depth leaves the entry intact,
and a later principal-variation line for `e2e4` at the same depth replaces
it. -/
theorem pv_protection_witness :
    oget "e2e4".data stC3.moveAnalysis = some eC3 ∧
      oget "e2e4".data (parseInfo lineC3curr stC3).2.moveAnalysis = some eC3 ∧
      oget "e2e4".data (parseInfo lineC3pv2 stC3).2.moveAnalysis =
        some (mkEntry "e2e4".data ⟨ScoreKind.cp, 44⟩ 5 (some ["e2e4".data, "d7d5".data])
          lineC3pv2) := by
  refine ⟨by decide, ?_, ?_⟩
  · exact (pv_protection stC3 lineC3curr "e2e4".data eC3 5).1 (by decide) (by decide)
      (by decide) (by decide) (by decide)
  · exact (pv_protection stC3 lineC3pv2 "e2e4".data eC3 5).2 ["d7d5".data]
      ⟨ScoreKind.cp, 44⟩ (by decide) (by decide) (by decide) (by decide) (by decide)

/-- Claim C6: a line whose scanned depth is strictly below `currentDepth`
leaves `currentDepth`, the archive and the side flag unchanged, still
records the line's valid move data into the live map at the line's own
depth under the normal overwrite rules, and returns `true` exactly when
one of the two move branches writes. -/
theorem shallow_line_processed (msg : Chars) (st : ParserState) (d : Nat)
    (h1 : scanNat litDepth msg = some d) (h2 : d < st.currentDepth) :
    (parseInfo msg st).2.currentDepth = st.currentDepth ∧
    (parseInfo msg st).2.depthAnalysis = st.depthAnalysis ∧
    (parseInfo msg st).2.isBlackToMove = st.isBlackToMove ∧
    (parseInfo msg st).1 = (currWrites msg st.moveAnalysis || pvWrites msg) ∧
    (∀ m ms sc, scanPv msg = some (m :: ms) → isValidMove m = true →
      extractScore msg = some sc →
      oget m (parseInfo msg st).2.moveAnalysis = some (mkEntry m sc d (some (m :: ms)) msg)) := by
  have hstay : archiveStep st d = st := archiveStep_stay st d (by omega)
  refine ⟨?_, ?_, ?_, ?_, ?_⟩
  · rw [parseInfo_snd_currentDepth msg st d h1, hstay]
  · rw [parseInfo_snd_depthAnalysis msg st d h1, hstay]
  · rw [parseInfo_snd_isBlackToMove msg st d h1, hstay]
  · rw [parseInfo_fst msg st d h1, hstay]
  · intro m ms sc hpv hval hsc
    rw [parseInfo_snd_moveAnalysis msg st d h1]
    rcases pvStep_cases msg d (currStep msg d (archiveStep st d).moveAnalysis).2 with
      ⟨hf, _⟩ | ⟨m2, ms2, sc2, hpv2, hsc2, _, _, hsnd⟩
    · exfalso
      have hne : (!m.isEmpty) = true := by
        cases m with
        | nil => simp [isValidMove] at hval
        | cons a as => simp [List.isEmpty]
      have htrue : pvWrites msg = true := by
        simp [pvWrites, hpv, hsc, hne, hval]
      rw [pvStep_fst, htrue] at hf
      exact absurd hf (by decide)
    · rw [hpv] at hpv2
      rw [hsc] at hsc2
      have h3 : m = m2 ∧ ms = ms2 := by
        have h4 := hpv2
        simp only [Option.some.injEq, List.cons.injEq] at h4
        exact h4
      have h5 : sc = sc2 := by
        have h6 := hsc2
        simp only [Option.some.injEq] at h6
        exact h6
      rw [hsnd, ← h3.1, ← h3.2, ← h5]
      exact oget_oset_self m _ _

/-- Witness for C6: with `currentDepth = 9`, a depth-7 line still records
its principal-variation move at depth 7 and leaves `currentDepth` at 9. -/
theorem shallow_line_processed_witness :
    (parseInfo lineC6 stC6).2.currentDepth = 9 ∧
      oget "h7h6".data (parseInfo lineC6 stC6).2.moveAnalysis =
        some (mkEntry "h7h6".data ⟨ScoreKind.cp, -20⟩ 7 (some ["h7h6".data, "g8f6".data])
          lineC6) := by
  obtain ⟨hcd, _, _, _, hrec⟩ := shallow_line_processed lineC6 stC6 7 (by decide) (by decide)
  constructor
  · rw [hcd]
    decide
  · exact hrec "h7h6".data ["g8f6".data] ⟨ScoreKind.cp, -20⟩ (by decide) (by decide) (by decide)

/-- Claim C8 counterexample: the line `info seldepth 5` has no token-level
`depth <integer>` field, yet ingesting it changes the state: the substring
scan finds `depth 5` inside `seldepth 5` and raises `currentDepth` to 5
while returning `false`. -/
theorem depth_token_cex :
    hasDepthToken "info seldepth 5".data = false ∧
      (parseInfo "info seldepth 5".data ParserState.init).1 = false ∧
      (parseInfo "info seldepth 5".data ParserState.init).2.currentDepth = 5 ∧
      (parseInfo "info seldepth 5".data ParserState.init).2 ≠ ParserState.init := by
  exact ⟨by decide, by decide, by decide, by decide⟩

/-- Claim C8 (amended): `parseInfo` returns `true` exactly when a move
entry is written.  A line in which the substring scan finds no `depth `
followed by a digit is ignored with no state change (a token such as
`seldepth` also satisfies the substring scan); a line with a scanned depth
but no valid write returns `false`, emits nothing to the subscriber, and
still undergoes exactly the depth-transition bookkeeping. -/
theorem ingest_return_spec (msg : Chars) (st : ParserState) :
    (scanNat litDepth msg = none → parseInfo msg st = (false, st)) ∧
    (∀ d, scanNat litDepth msg = some d →
      (parseInfo msg st).1 =
        (currWrites msg (archiveStep st d).moveAnalysis || pvWrites msg) ∧
      ((parseInfo msg st).1 = false →
        parseInfoEmits msg st = none ∧ (parseInfo msg st).2 = archiveStep st d)) := by
  constructor
  · intro h
    exact parseInfo_no_depth msg st h
  · intro d h
    constructor
    · exact parseInfo_fst msg st d h
    · intro hf
      refine ⟨parseInfoEmits_of_false hf, ?_⟩
      have hor := hf
      rw [parseInfo_fst msg st d h] at hor
      have hcw : (currStep msg d (archiveStep st d).moveAnalysis).1 = false := by
        rw [currStep_fst]
        exact (Bool.or_eq_false_iff.1 hor).1
      have hpw : (pvStep msg d (currStep msg d (archiveStep st d).moveAnalysis).2).1 = false := by
        rw [pvStep_fst]
        exact (Bool.or_eq_false_iff.1 hor).2
      refine parserState_ext ?_ ?_ ?_ ?_
      · exact parseInfo_snd_currentDepth msg st d h
      · rw [parseInfo_snd_moveAnalysis msg st d h, pvStep_false_snd hpw, currStep_false_snd hcw]
      · exact parseInfo_snd_depthAnalysis msg st d h
      · exact parseInfo_snd_isBlackToMove msg st d h

/-- Witness for C8: a line with no depth substring is ignored outright, and
a depth-only line returns `false`, emits nothing, and performs exactly the
bookkeeping. -/
theorem ingest_return_spec_witness :
    parseInfo "uci ok".data ParserState.init = (false, ParserState.init) ∧
      parseInfoEmits "info depth 3".data ParserState.init = none ∧
      (parseInfo "info depth 3".data ParserState.init).2 =
        archiveStep ParserState.init 3 := by
  refine ⟨?_, ?_, ?_⟩
  · exact (ingest_return_spec "uci ok".data ParserState.init).1 (by decide)
  · exact (((ingest_return_spec "info depth 3".data ParserState.init).2 3 (by decide)).2
      (by decide)).1
  · exact (((ingest_return_spec "info depth 3".data ParserState.init).2 3 (by decide)).2
      (by decide)).2

/-! Preservation lemmas for the depth-transition property. -/

theorem archiveStep_currentDepth_go (st : ParserState) (d : Nat)
    (h : st.currentDepth < d) : (archiveStep st d).currentDepth = d := by
  rw [archiveStep_go st d h]

theorem archiveStep_depthAnalysis_go (st : ParserState) (d : Nat)
    (h : st.currentDepth < d) :
    (archiveStep st d).depthAnalysis =
      if 0 < st.currentDepth && !st.moveAnalysis.isEmpty then
        oset st.currentDepth st.moveAnalysis st.depthAnalysis
      else st.depthAnalysis := by
  rw [archiveStep_go st d h]

theorem parseInfo_mono (msg : Chars) (st : ParserState) :
    st.currentDepth ≤ (parseInfo msg st).2.currentDepth := by
  cases h : scanNat litDepth msg with
  | none =>
    rw [parseInfo_no_depth msg st h]
  | some d =>
    rw [parseInfo_snd_currentDepth msg st d h]
    by_cases hlt : st.currentDepth < d
    · rw [archiveStep_currentDepth_go st d hlt]
      exact Nat.le_of_lt hlt
    · rw [archiveStep_stay st d hlt]

theorem parseInfo_arch_preserved (msg : Chars) (st : ParserState) (k : Nat) (v : LiveMap)
    (hk : k < st.currentDepth) (hv : oget k st.depthAnalysis = some v) :
    oget k (parseInfo msg st).2.depthAnalysis = some v ∧
      k < (parseInfo msg st).2.currentDepth := by
  have hlt2 : k < (parseInfo msg st).2.currentDepth :=
    Nat.lt_of_lt_of_le hk (parseInfo_mono msg st)
  refine ⟨?_, hlt2⟩
  cases h : scanNat litDepth msg with
  | none =>
    rw [parseInfo_no_depth msg st h]
    exact hv
  | some d =>
    rw [parseInfo_snd_depthAnalysis msg st d h]
    by_cases hgo : st.currentDepth < d
    · rw [archiveStep_depthAnalysis_go st d hgo]
      by_cases hc : (0 < st.currentDepth && !st.moveAnalysis.isEmpty) = true
      · rw [if_pos hc, oget_oset_ne (by omega : st.currentDepth ≠ k) _ _]
        exact hv
      · rw [if_neg hc]
        exact hv
    · rw [archiveStep_stay st d hgo]
      exact hv

theorem ingestAll_arch_preserved (msgs : List Chars) :
    ∀ (st : ParserState) (k : Nat) (v : LiveMap), k < st.currentDepth →
      oget k st.depthAnalysis = some v →
      oget k (ingestAll msgs st).depthAnalysis = some v ∧
        k < (ingestAll msgs st).currentDepth := by
  induction msgs with
  | nil =>
    intro st k v h1 h2
    exact ⟨h2, h1⟩
  | cons m rest ih =>
    intro st k v h1 h2
    obtain ⟨h3, h4⟩ := parseInfo_arch_preserved m st k v h1 h2
    exact ih (parseInfo m st).2 k v h4 h3

theorem mem_okeys_oset_of_mem {a k : Chars} (v : MoveAnalysisData) {m : LiveMap}
    (h : a ∈ okeys m) : a ∈ okeys (oset k v m) := by
  by_cases hk : k ∈ okeys m
  · rw [okeys_oset_mem v hk]
    exact h
  · rw [okeys_oset_not_mem v hk]
    exact List.mem_append_left _ h

theorem mem_okeys_oset_self (k : Chars) (v : MoveAnalysisData) (m : LiveMap) :
    k ∈ okeys (oset k v m) := by
  rw [← oget_isSome_iff, oget_oset_self]
  rfl

theorem archStep_superset {a : Chars} {acc : LiveMap} (p : Chars × MoveAnalysisData)
    (h : a ∈ okeys acc) : a ∈ okeys (archStep acc p) := by
  by_cases hc : (oget p.1 acc).isSome = true
  · rw [archStep, if_pos hc]
    exact h
  · rw [archStep, if_neg hc]
    exact mem_okeys_oset_of_mem p.2 h

theorem archInnerFold_superset (v : LiveMap) :
    ∀ {acc : LiveMap} {a : Chars}, a ∈ okeys acc → a ∈ okeys (v.foldl archStep acc) := by
  induction v with
  | nil => intro acc a h; exact h
  | cons p rest ih => intro acc a h; exact ih (archStep_superset p h)

theorem archFold_superset (arch : List (Nat × LiveMap)) :
    ∀ {acc : LiveMap} {a : Chars}, a ∈ okeys acc →
      a ∈ okeys (arch.foldl (fun acc dp => dp.2.foldl archStep acc) acc) := by
  induction arch with
  | nil => intro acc a h; exact h
  | cons q rest ih => intro acc a h; exact ih (archInnerFold_superset q.2 h)

theorem okeys_nil {K V : Type} : okeys ([] : List (K × V)) = [] := rfl

theorem okeys_cons {K V : Type} (p : K × V) (rest : List (K × V)) :
    okeys (p :: rest) = p.1 :: okeys rest := rfl

theorem archInnerFold_mem (v : LiveMap) :
    ∀ (acc : LiveMap) {M : Chars}, M ∈ okeys v → M ∈ okeys (v.foldl archStep acc) := by
  induction v with
  | nil =>
    intro acc M h
    rw [okeys_nil] at h
    exact absurd h (List.not_mem_nil M)
  | cons p rest ih =>
    intro acc M h
    rw [okeys_cons] at h
    rcases List.mem_cons.1 h with h1 | h1
    · subst h1
      refine archInnerFold_superset rest ?_
      by_cases hc : (oget p.1 acc).isSome = true
      · rw [archStep, if_pos hc]
        rw [← oget_isSome_iff]
        exact hc
      · rw [archStep, if_neg hc]
        exact mem_okeys_oset_self p.1 p.2 acc
    · exact ih (archStep acc p) h1

theorem archFold_mem (arch : List (Nat × LiveMap)) :
    ∀ (acc : LiveMap) (k : Nat) (v : LiveMap) {M : Chars}, (k, v) ∈ arch → M ∈ okeys v →
      M ∈ okeys (arch.foldl (fun acc dp => dp.2.foldl archStep acc) acc) := by
  induction arch with
  | nil =>
    intro acc k v M h _
    exact absurd h (List.not_mem_nil _)
  | cons q rest ih =>
    intro acc k v M hmem hM
    rcases List.mem_cons.1 hmem with h1 | h1
    · obtain ⟨k1, v1⟩ := q
      injection h1 with hk1 hv1
      refine archFold_superset rest ?_
      show M ∈ okeys (List.foldl archStep acc v1)
      rw [← hv1]
      exact archInnerFold_mem v acc hM
    · exact ih (q.2.foldl archStep acc) k v h1 hM

theorem consolidate_mem {st : ParserState} {M : Chars} {k : Nat} {v : LiveMap}
    (hv : oget k st.depthAnalysis = some v) (hM : M ∈ okeys v) :
    M ∈ okeys (consolidate st) := by
  unfold consolidate
  exact archFold_mem st.depthAnalysis _ k v (mem_of_oget hv) hM

theorem getSnapshot_moves (b : Bool) (st : ParserState) :
    (getSnapshot b st).moves = consolidate st := rfl

/-- Claim C4: from a state with moves recorded at positive depth `d` and a
non-empty live map, a line of depth greater than `d` archives the entire
live map under key `d`, and every move recorded at depth `d` stays present
in the moves map of every snapshot taken after ingesting any further
lines. -/
theorem depth_transition_preserves (st : ParserState) (msg : Chars) (d2 : Nat)
    (msgs : List Chars) (M : Chars) (b : Bool)
    (hd : 0 < st.currentDepth) (hne : st.moveAnalysis ≠ [])
    (hscan : scanNat litDepth msg = some d2) (hgt : st.currentDepth < d2)
    (hM : M ∈ okeys st.moveAnalysis) :
    oget st.currentDepth (parseInfo msg st).2.depthAnalysis = some st.moveAnalysis ∧
      M ∈ okeys (getSnapshot b (ingestAll msgs (parseInfo msg st).2)).moves := by
  have hisE : (!st.moveAnalysis.isEmpty) = true := by
    cases hma : st.moveAnalysis with
    | nil => exact absurd hma hne
    | cons p rest => rfl
  have hc : (0 < st.currentDepth && !st.moveAnalysis.isEmpty) = true := by
    simp [hd, hisE]
  have hkey : oget st.currentDepth (parseInfo msg st).2.depthAnalysis =
      some st.moveAnalysis := by
    rw [parseInfo_snd_depthAnalysis msg st d2 hscan, archiveStep_depthAnalysis_go st d2 hgt,
      if_pos hc]
    exact oget_oset_self _ _ _
  refine ⟨hkey, ?_⟩
  have hcd2 : st.currentDepth < (parseInfo msg st).2.currentDepth := by
    rw [parseInfo_snd_currentDepth msg st d2 hscan, archiveStep_currentDepth_go st d2 hgt]
    exact hgt
  obtain ⟨hpres, _⟩ := ingestAll_arch_preserved msgs (parseInfo msg st).2 st.currentDepth
    st.moveAnalysis hcd2 hkey
  rw [getSnapshot_moves]
  exact consolidate_mem hpres hM

/-! Best-move selection machinery. -/

theorem asGood_refl (x : Int × Nat) : asGood x x := Or.inr ⟨rfl, le_refl _⟩

theorem asGood_trans {x y z : Int × Nat} (h1 : asGood x y) (h2 : asGood y z) : asGood x z := by
  simp only [asGood] at *
  omega

theorem pickBest_none (p : Chars × MoveAnalysisData) :
    pickBest none p = some (p.1, calculateNumericScore p.2.score, rankOf p.2) := rfl

theorem pickBest_somes (bm : Chars) (bs : Int) (br : Nat) (p : Chars × MoveAnalysisData) :
    pickBest (some (bm, bs, br)) p =
      if bs < calculateNumericScore p.2.score ||
          (calculateNumericScore p.2.score = bs && rankOf p.2 < br) then
        some (p.1, calculateNumericScore p.2.score, rankOf p.2)
      else some (bm, bs, br) := rfl

theorem pickBest_step (acc : Option (Chars × Int × Nat)) (p : Chars × MoveAnalysisData) :
    ∃ t, pickBest acc p = some t ∧
      (t = (p.1, calculateNumericScore p.2.score, rankOf p.2) ∨ acc = some t) ∧
      asGood t.2 (calculateNumericScore p.2.score, rankOf p.2) ∧
      (∀ x y z, acc = some (x, y, z) → asGood t.2 (y, z)) := by
  cases acc with
  | none =>
    refine ⟨(p.1, calculateNumericScore p.2.score, rankOf p.2), rfl, Or.inl rfl,
      asGood_refl _, ?_⟩
    intro x y z h
    exact Option.noConfusion h
  | some a =>
    obtain ⟨bm0, bs0, br0⟩ := a
    by_cases hc : (bs0 < calculateNumericScore p.2.score ||
        (calculateNumericScore p.2.score = bs0 && rankOf p.2 < br0)) = true
    · refine ⟨(p.1, calculateNumericScore p.2.score, rankOf p.2), ?_, Or.inl rfl,
        asGood_refl _, ?_⟩
      · rw [pickBest_somes, if_pos hc]
      · intro x y z h
        injection h with h2
        simp only [Prod.mk.injEq] at h2
        obtain ⟨-, h3, h4⟩ := h2
        subst h3
        subst h4
        simp only [Bool.or_eq_true, Bool.and_eq_true, decide_eq_true_eq] at hc
        simp only [asGood]
        omega
    · refine ⟨(bm0, bs0, br0), ?_, Or.inr rfl, ?_, ?_⟩
      · rw [pickBest_somes, if_neg hc]
      · simp only [Bool.or_eq_true, Bool.and_eq_true, decide_eq_true_eq] at hc
        simp only [asGood]
        omega
      · intro x y z h
        injection h with h2
        simp only [Prod.mk.injEq] at h2
        obtain ⟨-, h3, h4⟩ := h2
        subst h3
        subst h4
        exact asGood_refl _

theorem pickBest_fold_some (l : LiveMap) :
    ∀ t, ∃ t2, l.foldl pickBest (some t) = some t2 := by
  induction l with
  | nil =>
    intro t
    exact ⟨t, rfl⟩
  | cons p rest ih =>
    intro t
    obtain ⟨t1, ht, -, -, -⟩ := pickBest_step (some t) p
    rw [List.foldl_cons, ht]
    exact ih t1

theorem pickBest_fold_bound (l : LiveMap) :
    ∀ acc t, l.foldl pickBest acc = some t →
      (∀ p ∈ l, asGood t.2 (calculateNumericScore p.2.score, rankOf p.2)) ∧
      (∀ x y z, acc = some (x, y, z) → asGood t.2 (y, z)) := by
  induction l with
  | nil =>
    intro acc t h
    refine ⟨fun p hp => absurd hp (List.not_mem_nil p), ?_⟩
    intro x y z hacc
    rw [hacc] at h
    injection h with h2
    rw [← h2]
    exact asGood_refl _
  | cons p rest ih =>
    intro acc t h
    obtain ⟨t1, ht1, -, hgood, haccg⟩ := pickBest_step acc p
    rw [List.foldl_cons, ht1] at h
    obtain ⟨hall, hacc⟩ := ih (some t1) t h
    have ht1good : asGood t.2 t1.2 := by
      obtain ⟨a1, a2, a3⟩ := t1
      exact hacc a1 a2 a3 rfl
    refine ⟨?_, ?_⟩
    · intro q hq
      rcases List.mem_cons.1 hq with h1 | h1
      · subst h1
        exact asGood_trans ht1good hgood
      · exact hall q h1
    · intro x y z hacc2
      exact asGood_trans ht1good (haccg x y z hacc2)

theorem pickBest_fold_mem (l : LiveMap) :
    ∀ acc t, l.foldl pickBest acc = some t →
      acc = some t ∨ ∃ e, (t.1, e) ∈ l ∧ t.2.1 = calculateNumericScore e.score ∧
        t.2.2 = rankOf e := by
  induction l with
  | nil =>
    intro acc t h
    exact Or.inl h
  | cons p rest ih =>
    intro acc t h
    obtain ⟨t1, ht1, horig, -, -⟩ := pickBest_step acc p
    rw [List.foldl_cons, ht1] at h
    rcases ih (some t1) t h with h1 | ⟨e, he, h2, h3⟩
    · injection h1 with h4
      rcases horig with h5 | h5
      · right
        refine ⟨p.2, ?_, ?_, ?_⟩
        · rw [← h4, h5]
          exact List.mem_cons_self p rest
        · rw [← h4, h5]
        · rw [← h4, h5]
      · left
        rw [h5, h4]
    · right
      exact ⟨e, List.mem_cons_of_mem p he, h2, h3⟩

theorem liveStep_nodup {acc : LiveMap} (p : Chars × MoveAnalysisData)
    (h : (okeys acc).Nodup) : (okeys (liveStep acc p)).Nodup := by
  cases hg : oget p.1 acc with
  | none =>
    simp only [liveStep, hg]
    exact nodup_okeys_oset _ _ h
  | some e =>
    simp only [liveStep, hg]
    by_cases hd : e.depth ≤ p.2.depth
    · rw [if_pos hd]
      exact nodup_okeys_oset _ _ h
    · rw [if_neg hd]
      exact h

theorem archStep_nodup {acc : LiveMap} (p : Chars × MoveAnalysisData)
    (h : (okeys acc).Nodup) : (okeys (archStep acc p)).Nodup := by
  by_cases hc : (oget p.1 acc).isSome = true
  · rw [archStep, if_pos hc]
    exact h
  · rw [archStep, if_neg hc]
    exact nodup_okeys_oset _ _ h

theorem liveFold_nodup (l : LiveMap) :
    ∀ acc, (okeys acc).Nodup → (okeys (l.foldl liveStep acc)).Nodup := by
  induction l with
  | nil => intro acc h; exact h
  | cons p rest ih => intro acc h; exact ih (liveStep acc p) (liveStep_nodup p h)

theorem archInnerFold_nodup (v : LiveMap) :
    ∀ acc, (okeys acc).Nodup → (okeys (v.foldl archStep acc)).Nodup := by
  induction v with
  | nil => intro acc h; exact h
  | cons p rest ih => intro acc h; exact ih (archStep acc p) (archStep_nodup p h)

theorem archFold_nodup (arch : List (Nat × LiveMap)) :
    ∀ acc, (okeys acc).Nodup →
      (okeys (arch.foldl (fun acc dp => dp.2.foldl archStep acc) acc)).Nodup := by
  induction arch with
  | nil => intro acc h; exact h
  | cons q rest ih => intro acc h; exact ih (q.2.foldl archStep acc) (archInnerFold_nodup q.2 acc h)

theorem consolidate_nodup (st : ParserState) : (okeys (consolidate st)).Nodup := by
  unfold consolidate
  refine archFold_nodup _ _ (liveFold_nodup _ _ ?_)
  rw [okeys_nil]
  exact List.nodup_nil

theorem getSnapshot_bestMove (b : Bool) (st : ParserState) :
    (getSnapshot b st).bestMove =
      ((consolidate st).foldl pickBest none).map (fun t => t.1) := rfl

/-- Witness for C4: the depth-5 entry for `e2e4` is archived by a depth-6
line and still appears in the snapshot after a further depth-6 line. -/
theorem depth_transition_preserves_witness :
    stC4.currentDepth = 5 ∧
      oget stC4.currentDepth (parseInfo lineC4 stC4).2.depthAnalysis = some stC4.moveAnalysis ∧
      "e2e4".data ∈ okeys (getSnapshot true (ingestAll [lineC4b] (parseInfo lineC4 stC4).2)).moves := by
  have h := depth_transition_preserves stC4 lineC4 6 [lineC4b] "e2e4".data true
    (by decide) (by decide) (by decide) (by decide) (by decide)
  exact ⟨by decide, h.1, h.2⟩

/-- Claim C5 counterexample: the comparison score of mate-in-1 (9999) does
not exceed that of a 10001-centipawn entry (10001); in a state holding a
mate-in-1 move and such a centipawn move, `bestMove` is the centipawn
move, refuting "every mate score with positive value exceeds every
centipawn score". -/
theorem best_move_mate_dominance_cex :
    calculateNumericScore ⟨ScoreKind.mate, 1⟩ < calculateNumericScore ⟨ScoreKind.cp, 10001⟩ ∧
      (oget "e2e4".data (getSnapshot true stC5).moves).map (fun e => e.score) =
        some ⟨ScoreKind.mate, 1⟩ ∧
      (getSnapshot true stC5).bestMove = some "d2d4".data := by
  exact ⟨by decide, by decide, by decide⟩

/-- Claim C5 (amended): `getSnapshot` selects `bestMove` as a consolidated
move maximizing the comparison score, preferring the smaller rank value on
ties (a zero or absent rank counts as 1); a non-empty consolidated map
always yields a best move.  Under the comparison score, a winning mate in
`v` exceeds every centipawn value below `10000 - v` (not every centipawn
value), closer winning mates exceed farther ones, a losing mate in `v`
is below every centipawn value above `-10000 - v`, closer losing mates
are below farther ones, and centipawn scores compare by value.  In
particular mate-in-1 beats mate-in-5, which beats +9.00 pawns, which
beats 0.00, which beats mate-in-5 against, which beats mate-in-1
against. -/
theorem best_move_selection :
    (∀ (b : Bool) (st : ParserState) (M : Chars), (getSnapshot b st).bestMove = some M →
      ∃ e, oget M (getSnapshot b st).moves = some e ∧
        ∀ M2 e2, oget M2 (getSnapshot b st).moves = some e2 →
          calculateNumericScore e2.score < calculateNumericScore e.score ∨
            (calculateNumericScore e2.score = calculateNumericScore e.score ∧
              rankOf e ≤ rankOf e2)) ∧
    (∀ (b : Bool) (st : ParserState), consolidate st ≠ [] →
      ((getSnapshot b st).bestMove).isSome = true) ∧
    (∀ v w : Int, 0 < v → v < w →
      calculateNumericScore ⟨ScoreKind.mate, w⟩ < calculateNumericScore ⟨ScoreKind.mate, v⟩) ∧
    (∀ v c : Int, 0 < v → c < 10000 - v →
      calculateNumericScore ⟨ScoreKind.cp, c⟩ < calculateNumericScore ⟨ScoreKind.mate, v⟩) ∧
    (∀ v c : Int, v < 0 → -10000 - v < c →
      calculateNumericScore ⟨ScoreKind.mate, v⟩ < calculateNumericScore ⟨ScoreKind.cp, c⟩) ∧
    (∀ v w : Int, w < v → v < 0 →
      calculateNumericScore ⟨ScoreKind.mate, v⟩ < calculateNumericScore ⟨ScoreKind.mate, w⟩) ∧
    (∀ c d : Int,
      (calculateNumericScore ⟨ScoreKind.cp, c⟩ < calculateNumericScore ⟨ScoreKind.cp, d⟩ ↔
        c < d)) ∧
    (calculateNumericScore ⟨ScoreKind.mate, 5⟩ < calculateNumericScore ⟨ScoreKind.mate, 1⟩ ∧
      calculateNumericScore ⟨ScoreKind.cp, 900⟩ < calculateNumericScore ⟨ScoreKind.mate, 5⟩ ∧
      calculateNumericScore ⟨ScoreKind.cp, 0⟩ < calculateNumericScore ⟨ScoreKind.cp, 900⟩ ∧
      calculateNumericScore ⟨ScoreKind.mate, -5⟩ < calculateNumericScore ⟨ScoreKind.cp, 0⟩ ∧
      calculateNumericScore ⟨ScoreKind.mate, -1⟩ < calculateNumericScore ⟨ScoreKind.mate, -5⟩) := by
  refine ⟨?_, ?_, ?_, ?_, ?_, ?_, ?_, ?_⟩
  · intro b st M hbest
    rw [getSnapshot_bestMove] at hbest
    cases hfold : (consolidate st).foldl pickBest none with
    | none =>
      rw [hfold] at hbest
      exact Option.noConfusion hbest
    | some t =>
      rw [hfold] at hbest
      injection hbest with hM
      rcases pickBest_fold_mem (consolidate st) none t hfold with h | ⟨e, hmem, h1, h2⟩
      · exact Option.noConfusion h
      · have hnodup := consolidate_nodup st
        have hM2 : t.1 = M := hM
        rw [hM2] at hmem
        have hoget : oget M (consolidate st) = some e := oget_of_mem_nodup hnodup hmem
        refine ⟨e, ?_, ?_⟩
        · rw [getSnapshot_moves]
          exact hoget
        · intro M2 e2 hM2
          rw [getSnapshot_moves] at hM2
          have hmem2 := mem_of_oget hM2
          have hbound := (pickBest_fold_bound (consolidate st) none t hfold).1 (M2, e2) hmem2
          simp only [asGood] at hbound
          rw [h1, h2] at hbound
          exact hbound
  · intro b st hne
    rw [getSnapshot_bestMove]
    cases hl : consolidate st with
    | nil => exact absurd hl hne
    | cons p rest =>
      rw [List.foldl_cons, pickBest_none]
      obtain ⟨t2, ht2⟩ := pickBest_fold_some rest _
      rw [ht2]
      rfl
  · intro v w h1 h2
    simp only [calculateNumericScore]
    rw [if_pos (by omega : (0 : Int) < w), if_pos h1]
    omega
  · intro v c h1 h2
    simp only [calculateNumericScore]
    rw [if_pos h1]
    omega
  · intro v c h1 h2
    simp only [calculateNumericScore]
    rw [if_neg (by omega : ¬ (0 : Int) < v)]
    omega
  · intro v w h1 h2
    simp only [calculateNumericScore]
    rw [if_neg (by omega : ¬ (0 : Int) < v), if_neg (by omega : ¬ (0 : Int) < w)]
    omega
  · intro c d
    simp only [calculateNumericScore]
  · exact ⟨by decide, by decide, by decide, by decide, by decide⟩

/-- Witness for C5: in the two-move state, the selection property applied
to the chosen move `d2d4`, plus the mate-over-centipawn bound at mate 5
versus 900 centipawns. -/
theorem best_move_selection_witness :
    (∃ e, oget "d2d4".data (getSnapshot true stC5).moves = some e ∧
      ∀ M2 e2, oget M2 (getSnapshot true stC5).moves = some e2 →
        calculateNumericScore e2.score < calculateNumericScore e.score ∨
          (calculateNumericScore e2.score = calculateNumericScore e.score ∧
            rankOf e ≤ rankOf e2)) ∧
    calculateNumericScore ⟨ScoreKind.cp, 900⟩ < calculateNumericScore ⟨ScoreKind.mate, 5⟩ := by
  constructor
  · exact best_move_selection.1 true stC5 "d2d4".data (by decide)
  · exact best_move_selection.2.2.2.1 5 900 (by decide) (by decide)

/-! Archive-fallback lookup machinery. -/

theorem liveStep_oget_ne {acc : LiveMap} {M : Chars} (p : Chars × MoveAnalysisData)
    (h : p.1 ≠ M) : oget M (liveStep acc p) = oget M acc := by
  cases hg : oget p.1 acc with
  | none =>
    simp only [liveStep, hg]
    exact oget_oset_ne h _ _
  | some e =>
    simp only [liveStep, hg]
    by_cases hd : e.depth ≤ p.2.depth
    · rw [if_pos hd]
      exact oget_oset_ne h _ _
    · rw [if_neg hd]

theorem liveFold_oget_none (l : LiveMap) :
    ∀ (acc : LiveMap) (M : Chars), oget M acc = none → oget M l = none →
      oget M (l.foldl liveStep acc) = none := by
  induction l with
  | nil =>
    intro acc M h _
    exact h
  | cons p rest ih =>
    intro acc M h hl
    simp only [oget] at hl
    by_cases hp : p.1 = M
    · rw [if_pos hp] at hl
      exact Option.noConfusion hl
    · rw [if_neg hp] at hl
      refine ih (liveStep acc p) M ?_ hl
      rw [liveStep_oget_ne p hp]
      exact h

theorem archStep_oget_ne {acc : LiveMap} {M : Chars} (p : Chars × MoveAnalysisData)
    (h : p.1 ≠ M) : oget M (archStep acc p) = oget M acc := by
  by_cases hc : (oget p.1 acc).isSome = true
  · rw [archStep, if_pos hc]
  · rw [archStep, if_neg hc]
    exact oget_oset_ne h _ _

theorem archInnerFold_oget_some (v : LiveMap) :
    ∀ (acc : LiveMap) (M : Chars) (e : MoveAnalysisData), oget M acc = some e →
      oget M (v.foldl archStep acc) = some e := by
  induction v with
  | nil =>
    intro acc M e h
    exact h
  | cons p rest ih =>
    intro acc M e h
    refine ih (archStep acc p) M e ?_
    by_cases hp : p.1 = M
    · have hs : (oget p.1 acc).isSome = true := by
        rw [hp, h]
        rfl
      rw [archStep, if_pos hs]
      exact h
    · rw [archStep_oget_ne p hp]
      exact h

theorem archInnerFold_oget_none (v : LiveMap) :
    ∀ (acc : LiveMap) (M : Chars), oget M acc = none →
      oget M (v.foldl archStep acc) = oget M v := by
  induction v with
  | nil =>
    intro acc M h
    simp only [List.foldl_nil]
    rw [h]
    rfl
  | cons p rest ih =>
    intro acc M h
    rw [List.foldl_cons]
    by_cases hp : p.1 = M
    · have hs : ¬ (oget p.1 acc).isSome = true := by
        rw [hp, h]
        simp
      have harch : archStep acc p = oset p.1 p.2 acc := by
        rw [archStep, if_neg hs]
      have hone : oget M (oset p.1 p.2 acc) = some p.2 := by
        rw [← hp]
        exact oget_oset_self p.1 p.2 acc
      rw [harch, archInnerFold_oget_some rest _ M p.2 hone]
      have hrhs : oget M (p :: rest) = some p.2 := by
        simp only [oget]
        rw [if_pos hp]
      rw [hrhs]
    · have hacc2 : oget M (archStep acc p) = none := by
        rw [archStep_oget_ne p hp]
        exact h
      rw [ih (archStep acc p) M hacc2]
      have hrhs : oget M (p :: rest) = oget M rest := by
        simp only [oget]
        rw [if_neg hp]
      rw [hrhs]

theorem archFold_oget_some (arch : List (Nat × LiveMap)) :
    ∀ (acc : LiveMap) (M : Chars) (e : MoveAnalysisData), oget M acc = some e →
      oget M (arch.foldl (fun acc dp => dp.2.foldl archStep acc) acc) = some e := by
  induction arch with
  | nil =>
    intro acc M e h
    exact h
  | cons q rest ih =>
    intro acc M e h
    rw [List.foldl_cons]
    exact ih (q.2.foldl archStep acc) M e (archInnerFold_oget_some q.2 acc M e h)

theorem archFold_oget_find (arch : List (Nat × LiveMap)) :
    ∀ (acc : LiveMap) (M : Chars) (q : Nat × LiveMap), oget M acc = none →
      List.find? (fun p => (oget M p.2).isSome) arch = some q →
      oget M (arch.foldl (fun acc dp => dp.2.foldl archStep acc) acc) = oget M q.2 := by
  induction arch with
  | nil =>
    intro acc M q _ hf
    exact absurd hf (by simp)
  | cons q0 rest ih =>
    intro acc M q h hf
    rw [List.foldl_cons]
    have hacc1 : oget M (q0.2.foldl archStep acc) = oget M q0.2 :=
      archInnerFold_oget_none q0.2 acc M h
    cases hq0 : oget M q0.2 with
    | some e =>
      simp only [List.find?, hq0, Option.isSome_some, cond_true, cond_false] at hf
      injection hf with hq
      have hsome : oget M (q0.2.foldl archStep acc) = some e := by
        rw [hacc1, hq0]
      rw [archFold_oget_some rest _ M e hsome, ← hq, hq0]
    | none =>
      simp only [List.find?, hq0, Option.isSome_none, cond_true, cond_false] at hf
      refine ih (q0.2.foldl archStep acc) M q ?_ hf
      rw [hacc1, hq0]

theorem consolidate_oget_arch {st : ParserState} {M : Chars} {q : Nat × LiveMap}
    (hM : oget M st.moveAnalysis = none)
    (hfind : List.find? (fun p => (oget M p.2).isSome) st.depthAnalysis = some q) :
    oget M (consolidate st) = oget M q.2 := by
  unfold consolidate
  refine archFold_oget_find st.depthAnalysis _ M q ?_ hfind
  exact liveFold_oget_none st.moveAnalysis [] M rfl hM

theorem find_min_sorted (l : List (Nat × LiveMap)) (M : Chars) :
    List.Pairwise (fun a b : Nat × LiveMap => a.1 < b.1) l →
    ∀ q, List.find? (fun p => (oget M p.2).isSome) l = some q →
    ∀ p ∈ l, (oget M p.2).isSome = true → q.1 ≤ p.1 := by
  induction l with
  | nil =>
    intro _ q hf
    exact absurd hf (by simp)
  | cons a rest ih =>
    intro hp q hf p hmem hpred
    have hp1 := List.pairwise_cons.1 hp
    by_cases ha : ((oget M a.2).isSome) = true
    · simp only [List.find?, ha, cond_true, cond_false] at hf
      injection hf with hq
      rcases List.mem_cons.1 hmem with h1 | h1
      · rw [← hq, h1]
      · have := hp1.1 p h1
        rw [← hq]
        omega
    · rw [Bool.not_eq_true] at ha
      simp only [List.find?, ha, cond_true, cond_false] at hf
      rcases List.mem_cons.1 hmem with h1 | h1
      · rw [h1] at hpred
        rw [hpred] at ha
        exact absurd ha (by decide)
      · exact ih hp1.2 q hf p h1 hpred

theorem handleBestMove_snd (st : ParserState) :
    (handleBestMove st).2 =
      if 0 < st.currentDepth && !st.moveAnalysis.isEmpty then
        (⟨st.currentDepth, st.moveAnalysis,
          oset st.currentDepth st.moveAnalysis st.depthAnalysis,
          st.isBlackToMove⟩ : ParserState)
      else st := rfl

theorem arch_oset_inv {arch : List (Nat × LiveMap)} {cd : Nat} (v : LiveMap)
    (hp : List.Pairwise (· < ·) (okeys arch)) (hb : ∀ k ∈ okeys arch, k ≤ cd) :
    List.Pairwise (· < ·) (okeys (oset cd v arch)) ∧
      ∀ k ∈ okeys (oset cd v arch), k ≤ cd := by
  by_cases hm : cd ∈ okeys arch
  · rw [okeys_oset_mem v hm]
    exact ⟨hp, hb⟩
  · rw [okeys_oset_not_mem v hm]
    constructor
    · rw [List.pairwise_append]
      refine ⟨hp, by simp, ?_⟩
      intro a ha b hb2
      rw [List.mem_singleton] at hb2
      subst hb2
      have h1 := hb a ha
      have h2 : a ≠ b := fun hc => hm (hc ▸ ha)
      omega
    · intro k hk
      rcases List.mem_append.1 hk with h | h
      · exact hb k h
      · rw [List.mem_singleton] at h
        omega

theorem runOp_archInv (st : ParserState) (op : AggOp) (h : archInv st) :
    archInv (runOp st op) := by
  obtain ⟨hp, hb⟩ := h
  cases op with
  | line msg =>
    show archInv (parseInfo msg st).2
    cases hscan : scanNat litDepth msg with
    | none =>
      rw [parseInfo_no_depth msg st hscan]
      exact ⟨hp, hb⟩
    | some d =>
      constructor
      · rw [parseInfo_snd_depthAnalysis msg st d hscan]
        by_cases hlt : st.currentDepth < d
        · rw [archiveStep_depthAnalysis_go st d hlt]
          by_cases hc : (0 < st.currentDepth && !st.moveAnalysis.isEmpty) = true
          · rw [if_pos hc]
            exact (arch_oset_inv st.moveAnalysis hp hb).1
          · rw [if_neg hc]
            exact hp
        · rw [archiveStep_stay st d hlt]
          exact hp
      · intro k hk
        rw [parseInfo_snd_depthAnalysis msg st d hscan] at hk
        rw [parseInfo_snd_currentDepth msg st d hscan]
        by_cases hlt : st.currentDepth < d
        · rw [archiveStep_currentDepth_go st d hlt]
          rw [archiveStep_depthAnalysis_go st d hlt] at hk
          by_cases hc : (0 < st.currentDepth && !st.moveAnalysis.isEmpty) = true
          · rw [if_pos hc] at hk
            have := (arch_oset_inv st.moveAnalysis hp hb).2 k hk
            omega
          · rw [if_neg hc] at hk
            have := hb k hk
            omega
        · rw [archiveStep_stay st d hlt] at hk ⊢
          exact hb k hk
  | best =>
    show archInv (handleBestMove st).2
    rw [handleBestMove_snd]
    by_cases hc : (0 < st.currentDepth && !st.moveAnalysis.isEmpty) = true
    · rw [if_pos hc]
      exact arch_oset_inv st.moveAnalysis hp hb
    · rw [if_neg hc]
      exact ⟨hp, hb⟩
  | doReset =>
    exact ⟨List.Pairwise.nil, fun k hk => absurd hk (List.not_mem_nil k)⟩
  | side b =>
    exact ⟨hp, hb⟩

theorem runOps_archInv_aux (ops : List AggOp) :
    ∀ st, archInv st → archInv (ops.foldl runOp st) := by
  induction ops with
  | nil =>
    intro st h
    exact h
  | cons op rest ih =>
    intro st h
    exact ih (runOp st op) (runOp_archInv st op h)

theorem runOps_archInv (ops : List AggOp) : archInv (runOps ops) :=
  runOps_archInv_aux ops ParserState.init
    ⟨List.Pairwise.nil, fun k hk => absurd hk (List.not_mem_nil k)⟩

/-- Claim C10: in every reachable state, when a move is absent from the
live map, the snapshot's entry for it is the one of the first archived
depth map (in iteration order) containing it, and — archive keys being
strictly increasing in iteration order — that first map is the one of the
shallowest (earliest-archived, hence stalest) depth holding the move. -/
theorem archive_fallback_earliest (ops : List AggOp) (M : Chars) (q : Nat × LiveMap)
    (hM : oget M (runOps ops).moveAnalysis = none)
    (hfind : List.find? (fun p => (oget M p.2).isSome) (runOps ops).depthAnalysis = some q) :
    oget M (getSnapshot true (runOps ops)).moves = oget M q.2 ∧
      List.Pairwise (· < ·) (okeys (runOps ops).depthAnalysis) ∧
      ∀ p ∈ (runOps ops).depthAnalysis, (oget M p.2).isSome = true → q.1 ≤ p.1 := by
  have hinv := runOps_archInv ops
  have hpair : List.Pairwise (fun a b : Nat × LiveMap => a.1 < b.1)
      (runOps ops).depthAnalysis := List.pairwise_map.1 hinv.1
  refine ⟨?_, hinv.1, ?_⟩
  · rw [getSnapshot_moves]
    exact consolidate_oget_arch hM hfind
  · exact find_min_sorted _ M hpair q hfind

/-- Witness for C10: after depth transitions 2 → 3 → 4, the move `e2e4`
sits in the archived maps of depths 2 and 3 and is absent from the live
map; the snapshot returns its depth-2 (stalest) entry. -/
theorem archive_fallback_earliest_witness :
    oget "e2e4".data (getSnapshot true (runOps opsC10)).moves =
      oget "e2e4".data
        [("e2e4".data,
          (⟨"e2e4".data, ⟨ScoreKind.cp, 10⟩, 2, none, 1, none, none, none⟩ :
            MoveAnalysisData))] ∧
      (∀ p ∈ (runOps opsC10).depthAnalysis,
        (oget "e2e4".data p.2).isSome = true → 2 ≤ p.1) := by
  have h := archive_fallback_earliest opsC10 "e2e4".data
    (2, [("e2e4".data, ⟨"e2e4".data, ⟨ScoreKind.cp, 10⟩, 2, none, 1, none, none, none⟩)])
    (by decide) (by decide)
  exact ⟨h.1, h.2.2⟩

end UCI
